import Mathlib

/-
Shallow embedding of the Snotra launcher core: the versioned binary
envelope, the query normalizer, the search engine, the live folder
listing, the history store and the index-cache logic, together with
theorems settling the specification claims.

Modelling conventions: Rust strings are lists of characters; byte
buffers are lists of natural numbers below 256; u32 and u64 values are
natural numbers, with wrapping arithmetic written explicitly modulo
2 ^ 32; filesystem reads appear as explicit parameters; Rust hash maps
are association lists (updating keeps the position of an existing key,
a new key is appended at the end); the external skim fuzzy matcher is
an abstract scoring function parameter.
-/

namespace Snotra

/-! Binary envelope, from snotra-core/src/binfmt.rs. -/

def HEADER_LEN : Nat := 8

def u32ToLe (v : Nat) : List Nat :=
  [v % 256, v / 256 % 256, v / 65536 % 256, v / 16777216 % 256]

def u32FromLe (b : List Nat) : Nat :=
  match b with
  | [b0, b1, b2, b3] => b0 + 256 * b1 + 65536 * b2 + 16777216 * b3
  | _ => 0

def serialize_with_header {α : Type} (enc : α → Option (List Nat))
    (magic : List Nat) (version : Nat) (payload : α) : Option (List Nat) :=
  (enc payload).map (fun body => magic ++ u32ToLe version ++ body)

def deserialize_with_header {α : Type} (dec : List Nat → Option α)
    (magic : List Nat) (version : Nat) (bytes : List Nat) : Option α :=
  if bytes.length < HEADER_LEN then none
  else if bytes.take 4 ≠ magic then none
  else if u32FromLe ((bytes.drop 4).take 4) ≠ version then none
  else dec (bytes.drop HEADER_LEN)

theorem u32FromLe_u32ToLe {v : Nat} (hv : v < 2 ^ 32) :
    u32FromLe (u32ToLe v) = v := by
  simp only [u32ToLe, u32FromLe]
  omega

theorem length_u32ToLe (v : Nat) : (u32ToLe v).length = 4 := rfl

theorem deserialize_header_eq {α : Type} (dec : List Nat → Option α)
    (em : List Nat) (ev : Nat) (magic le body : List Nat)
    (hm : magic.length = 4) (hle : le.length = 4) :
    deserialize_with_header dec em ev (magic ++ le ++ body) =
      if magic ≠ em then none
      else if u32FromLe le ≠ ev then none
      else dec body := by
  have hassoc : magic ++ le ++ body = magic ++ (le ++ body) := List.append_assoc _ _ _
  have hlen : (magic ++ le ++ body).length = 8 + body.length := by
    simp [hm, hle]; omega
  have htake : (magic ++ le ++ body).take 4 = magic := by
    rw [hassoc]; exact List.take_left' hm
  have hdrop : (magic ++ le ++ body).drop 4 = le ++ body := by
    rw [hassoc]; exact List.drop_left' hm
  have hdrop8 : (magic ++ le ++ body).drop 8 = body :=
    List.drop_left' (by simp [hm, hle])
  simp only [deserialize_with_header, HEADER_LEN, hlen, htake, hdrop, hdrop8]
  rw [List.take_left' hle]
  have hnl : ¬ (8 + body.length < 8) := by omega
  rw [if_neg hnl]

/-- C5: for every payload x whose codec round-trips (that is what being
serializable means for the bincode payload), every 4-entry magic and every
u32 version, decoding the header-wrapped encoding of x under the same
magic and version succeeds and returns exactly x. -/
theorem claim_C5_envelope_roundtrip {α : Type}
    (enc : α → Option (List Nat)) (dec : List Nat → Option α)
    (magic : List Nat) (v : Nat) (x : α) (body : List Nat)
    (hmagic : magic.length = 4) (hv : v < 2 ^ 32)
    (henc : enc x = some body) (hdec : dec body = some x) :
    (serialize_with_header enc magic v x).bind
      (fun bytes => deserialize_with_header dec magic v bytes) = some x := by
  simp only [serialize_with_header, henc, Option.map_some', Option.some_bind]
  rw [deserialize_header_eq dec magic v magic (u32ToLe v) body hmagic (length_u32ToLe v)]
  simp [u32FromLe_u32ToLe hv, hdec]

theorem claim_C5_envelope_roundtrip_witness :
    (serialize_with_header (fun n : Nat => some [n % 256]) [72, 73, 83, 84] 1 42).bind
      (fun bytes =>
        deserialize_with_header
          (fun l => match l with | [b] => some b | _ => none)
          [72, 73, 83, 84] 1 bytes) = some 42 :=
  claim_C5_envelope_roundtrip (fun n : Nat => some [n % 256])
    (fun l => match l with | [b] => some b | _ => none)
    [72, 73, 83, 84] 1 42 [42] rfl (by decide) rfl rfl

/-- C6: deserialize_with_header returns none (it is a total function, so it
never throws) when the buffer is shorter than the 8-byte header, when the
first 4 entries differ from the expected magic, when the stored
little-endian version differs from the expected version, or when the
payload decoder fails; in particular decoding an encoded value under a
different magic or a different version yields none. -/
theorem claim_C6_decode_failures {α : Type}
    (dec : List Nat → Option α) (magic : List Nat) (v : Nat) :
    (∀ bytes : List Nat, bytes.length < 8 →
        deserialize_with_header dec magic v bytes = none)
    ∧ (∀ bytes : List Nat, bytes.take 4 ≠ magic →
        deserialize_with_header dec magic v bytes = none)
    ∧ (∀ bytes : List Nat, u32FromLe ((bytes.drop 4).take 4) ≠ v →
        deserialize_with_header dec magic v bytes = none)
    ∧ (∀ bytes : List Nat, dec (bytes.drop 8) = none →
        deserialize_with_header dec magic v bytes = none)
    ∧ (∀ (enc : α → Option (List Nat)) (x : α) (bytes m2 : List Nat),
        magic.length = 4 → m2.length = 4 → m2 ≠ magic →
        serialize_with_header enc magic v x = some bytes →
        deserialize_with_header dec m2 v bytes = none)
    ∧ (∀ (enc : α → Option (List Nat)) (x : α) (bytes : List Nat) (v2 : Nat),
        magic.length = 4 → v < 2 ^ 32 → v2 ≠ v →
        serialize_with_header enc magic v x = some bytes →
        deserialize_with_header dec magic v2 bytes = none) := by
  refine ⟨?_, ?_, ?_, ?_, ?_, ?_⟩
  · intro bytes h
    simp [deserialize_with_header, HEADER_LEN, h]
  · intro bytes h
    simp only [deserialize_with_header, HEADER_LEN]
    by_cases hl : bytes.length < 8
    · simp [hl]
    · simp [hl, h]
  · intro bytes h
    simp only [deserialize_with_header, HEADER_LEN]
    by_cases hl : bytes.length < 8
    · simp [hl]
    · by_cases hm : bytes.take 4 = magic
      · simp [hl, hm, h]
      · simp [hl, hm]
  · intro bytes h
    simp only [deserialize_with_header, HEADER_LEN]
    by_cases hl : bytes.length < 8
    · simp [hl]
    · by_cases hm : bytes.take 4 = magic
      · by_cases hv : u32FromLe ((bytes.drop 4).take 4) = v
        · simp [hl, hm, hv, h]
        · simp [hl, hm, hv]
      · simp [hl, hm]
  · intro enc x bytes m2 hm hm2 hne hser
    simp only [serialize_with_header] at hser
    rcases henc : enc x with _ | body
    · rw [henc] at hser; simp at hser
    · rw [henc] at hser
      simp only [Option.map_some', Option.some.injEq] at hser
      subst hser
      rw [deserialize_header_eq dec m2 v magic (u32ToLe v) body hm (length_u32ToLe v)]
      have hne2 : magic ≠ m2 := fun h => hne h.symm
      simp [hne2]
  · intro enc x bytes v2 hm hv hne hser
    simp only [serialize_with_header] at hser
    rcases henc : enc x with _ | body
    · rw [henc] at hser; simp at hser
    · rw [henc] at hser
      simp only [Option.map_some', Option.some.injEq] at hser
      subst hser
      rw [deserialize_header_eq dec magic v2 magic (u32ToLe v) body hm (length_u32ToLe v)]
      have hne2 : v ≠ v2 := fun h => hne h.symm
      simp [u32FromLe_u32ToLe hv, hne2]

theorem claim_C6_decode_failures_witness :
    deserialize_with_header (fun l => match l with | [b] => some b | _ => none)
      [72, 73, 83, 84] 1 [] = none
    ∧ deserialize_with_header (fun l => match l with | [b] => some b | _ => none)
      [72, 73, 83, 84] 1 [66, 65, 68, 33, 1, 0, 0, 0, 42] = none
    ∧ deserialize_with_header (fun l => match l with | [b] => some b | _ => none)
      [66, 65, 68, 33] 1 [72, 73, 83, 84, 1, 0, 0, 0, 42] = none
    ∧ deserialize_with_header (fun l => match l with | [b] => some b | _ => none)
      [72, 73, 83, 84] 2 [72, 73, 83, 84, 1, 0, 0, 0, 42] = none := by
  have h := claim_C6_decode_failures
    (fun l : List Nat => match l with | [b] => some b | _ => none)
    [72, 73, 83, 84] 1
  refine ⟨h.1 [] (by decide), h.2.1 _ (by decide),
    h.2.2.2.2.1 (fun n => some [n % 256]) 42 _ [66, 65, 68, 33]
      rfl rfl (by decide) rfl,
    h.2.2.2.2.2 (fun n => some [n % 256]) 42 _ 2 rfl (by decide) (by decide) rfl⟩

/-! Query normalizer, from snotra-core/src/query.rs. -/

def isWS (c : Char) : Bool := c.isWhitespace

def trimChars (l : List Char) : List Char :=
  ((l.dropWhile isWS).reverse.dropWhile isWS).reverse

def normCore : List Char → Bool → List Char
  | [], _ => []
  | c :: rest, prevSpace =>
    if isWS c then
      if prevSpace then normCore rest true
      else ' ' :: normCore rest true
    else c.toLower :: normCore rest false

def normalize_query (q : List Char) : List Char :=
  normCore (trimChars q) false

/-! Search engine, from snotra-core/src/search.rs.  The skim fuzzy
matcher is an external crate, so it enters the model as an abstract
scoring function.  The history store is injected by reference and only
read through four accessors plus the recent-launches listing, so it
enters the search model through that interface. -/

inductive SearchMode
  | Prefix
  | Substring
  | Fuzzy
deriving DecidableEq

structure AppEntry where
  name : List Char
  target_path : List Char
  is_folder : Bool
deriving DecidableEq

structure SearchResult where
  name : List Char
  path : List Char
  is_folder : Bool
  is_error : Bool
deriving DecidableEq

structure HistAccess where
  globalCount : List Char → Nat
  queryCount : List Char → List Char → Nat
  lastLaunched : List Char → Option Nat
  folderExpansionCount : List Char → Nat
  recentLaunches : List (List Char)

def toLowerList (l : List Char) : List Char := l.map Char.toLower

def firstIdx (q : List Char) : List Char → Option Nat
  | [] => if q.isPrefixOf ([] : List Char) then some 0 else none
  | c :: tl =>
    if q.isPrefixOf (c :: tl) then some 0
    else (firstIdx q tl).map (fun i => i + 1)

def matchScoreSingleCached (fuzzy : List Char → List Char → Option Int)
    (mode : SearchMode) (lowerName query : List Char) : Option Int :=
  match mode with
  | .Prefix =>
    if query.isPrefixOf lowerName then some (10000 - (lowerName.length : Int))
    else none
  | .Substring => (firstIdx query lowerName).map (fun (idx : Nat) => 5000 - (idx : Int))
  | .Fuzzy => fuzzy lowerName query

def matchScoreSingle (fuzzy : List Char → List Char → Option Int)
    (mode : SearchMode) (name query : List Char) : Option Int :=
  matchScoreSingleCached fuzzy mode (toLowerList name) query

def isSep (c : Char) : Bool := c = '\\' || c = '/'

def afterLastSep (l : List Char) : List Char :=
  l.foldl (fun acc c => if isSep c then [] else acc ++ [c]) []

def fileName (p : List Char) : Option (List Char) :=
  if afterLastSep p = [] then none else some (afterLastSep p)

def entryBaseScore (fuzzy : List Char → List Char → Option Int)
    (mode : SearchMode) (hasDot : Bool) (e : AppEntry)
    (lowerName nq : List Char) : Option Int :=
  let nameScore := matchScoreSingleCached fuzzy mode lowerName nq
  if hasDot then
    let fnScore := (fileName e.target_path).bind
      (fun f => matchScoreSingle fuzzy mode f nq)
    match nameScore, fnScore with
    | some a, some b => some (max a b)
    | some a, none => some a
    | none, some b => some b
    | none, none => none
  else nameScore

def GLOBAL_WEIGHT : Int := 5
def QUERY_WEIGHT : Int := 20
def FOLDER_EXPANSION_WEIGHT : Int := 5

def combinedScore (hist : HistAccess) (nq : List Char) (e : AppEntry)
    (base : Int) : Int :=
  let g : Int := hist.globalCount e.target_path
  let qc : Int := hist.queryCount nq e.target_path
  let fb : Int :=
    if e.is_folder then (hist.folderExpansionCount e.target_path : Int) * FOLDER_EXPANSION_WEIGHT
    else 0
  base + g * GLOBAL_WEIGHT + qc * QUERY_WEIGHT + fb

def cmpChars : List Char → List Char → Ordering
  | [], [] => .eq
  | [], _ :: _ => .lt
  | _ :: _, [] => .gt
  | a :: as, b :: bs => (compare a b).then (cmpChars as bs)

def scoredCmp (x y : Int × Nat × AppEntry × List Char) : Ordering :=
  ((compare y.1 x.1).then (compare y.2.1 x.2.1)).then (cmpChars x.2.2.2 y.2.2.2)

def scoredLe (x y : Int × Nat × AppEntry × List Char) : Bool :=
  match scoredCmp x y with
  | .gt => false
  | _ => true

def search (fuzzy : List Char → List Char → Option Int)
    (entries : List AppEntry) (query : List Char) (max_results : Nat)
    (hist : HistAccess) (mode : SearchMode) : List SearchResult :=
  let nq := normalize_query query
  if nq = [] then []
  else
    let hasDot := nq.contains '.'
    let lowerNames := entries.map (fun e => toLowerList e.name)
    let scored := (entries.zip lowerNames).filterMap (fun p =>
      (entryBaseScore fuzzy mode hasDot p.1 p.2 nq).map (fun base =>
        (combinedScore hist nq p.1 base,
         (hist.lastLaunched p.1.target_path).getD 0, p.1, p.2)))
    let sorted := scored.mergeSort scoredLe
    (sorted.take max_results).map (fun t =>
      { name := t.2.2.1.name, path := t.2.2.1.target_path,
        is_folder := t.2.2.1.is_folder, is_error := false })

def lookupEntry (entries : List AppEntry) (p : List Char) : Option AppEntry :=
  entries.reverse.find? (fun e => e.target_path == p)

def recent_history (entries : List AppEntry) (hist : HistAccess)
    (max_results : Nat) : List SearchResult :=
  (hist.recentLaunches.take max_results).filterMap (fun p =>
    (lookupEntry entries p).map (fun e =>
      { name := e.name, path := e.target_path,
        is_folder := e.is_folder, is_error := false }))

theorem firstIdx_spec (q : List Char) (l : List Char) (i : Nat) :
    firstIdx q l = some i ↔
      (q <+: l.drop i ∧ ∀ j < i, ¬ q <+: l.drop j) := by
  induction l generalizing i with
  | nil =>
    simp only [firstIdx, List.drop_nil]
    by_cases hp : q.isPrefixOf ([] : List Char)
    · rw [if_pos hp]
      have hq : q <+: [] := List.isPrefixOf_iff_prefix.mp hp
      constructor
      · rintro h
        cases h
        exact ⟨hq, by omega⟩
      · rintro ⟨-, hall⟩
        rcases Nat.eq_zero_or_pos i with h0 | h0
        · rw [h0]
        · exact absurd hq (hall 0 h0)
    · rw [if_neg hp]
      have hq : ¬ q <+: [] := fun h => hp (List.isPrefixOf_iff_prefix.mpr h)
      simp [hq]
  | cons c tl ih =>
    simp only [firstIdx]
    by_cases hp : q.isPrefixOf (c :: tl)
    · rw [if_pos hp]
      have hq : q <+: c :: tl := List.isPrefixOf_iff_prefix.mp hp
      constructor
      · rintro h
        cases h
        exact ⟨hq, by omega⟩
      · rintro ⟨-, hall⟩
        rcases Nat.eq_zero_or_pos i with h0 | h0
        · rw [h0]
        · exact absurd (by simpa using hq) (hall 0 h0)
    · rw [if_neg hp]
      have hq : ¬ q <+: c :: tl := fun h => hp (List.isPrefixOf_iff_prefix.mpr h)
      constructor
      · intro h
        rcases Option.map_eq_some'.mp h with ⟨i0, hi0, rfl⟩
        rcases (ih i0).mp hi0 with ⟨h1, h2⟩
        refine ⟨by simpa using h1, ?_⟩
        intro j hj
        match j with
        | 0 => simpa using hq
        | j + 1 =>
          have : j < i0 := by omega
          simpa using h2 j this
      · rintro ⟨h1, h2⟩
        match i with
        | 0 => exact absurd (by simpa using h1) hq
        | i + 1 =>
          have hi : firstIdx q tl = some i := by
            refine (ih i).mpr ⟨by simpa using h1, ?_⟩
            intro j hj
            have := h2 (j + 1) (by omega)
            simpa using this
          simp [hi]

def emptyHistAccess : HistAccess :=
  { globalCount := fun _ => 0, queryCount := fun _ _ => 0,
    lastLaunched := fun _ => none, folderExpansionCount := fun _ => 0,
    recentLaunches := [] }

theorem zip_lowerNames (entries : List AppEntry) :
    entries.zip (entries.map (fun e => toLowerList e.name)) =
      entries.map (fun e => (e, toLowerList e.name)) := by
  induction entries with
  | nil => rfl
  | cons e tl ih => simp only [List.map_cons, List.zip_cons_cons, ih]

theorem search_result_mem {fuzzy : List Char → List Char → Option Int}
    {entries : List AppEntry} {query : List Char} {mr : Nat}
    {hist : HistAccess} {mode : SearchMode} {r : SearchResult}
    (hr : r ∈ search fuzzy entries query mr hist mode) :
    ∃ e ∈ entries, ∃ base : Int,
      entryBaseScore fuzzy mode ((normalize_query query).contains '.') e
        (toLowerList e.name) (normalize_query query) = some base
      ∧ r = ⟨e.name, e.target_path, e.is_folder, false⟩ := by
  simp only [search] at hr
  by_cases hq : normalize_query query = []
  · simp [hq] at hr
  · rw [if_neg hq] at hr
    rcases List.mem_map.mp hr with ⟨t, ht, rfl⟩
    have ht2 := List.mem_mergeSort.mp (List.mem_of_mem_take ht)
    rcases List.mem_filterMap.mp ht2 with ⟨p, hp, hgp⟩
    rw [zip_lowerNames] at hp
    rcases List.mem_map.mp hp with ⟨e, he, rfl⟩
    simp only [Option.map_eq_some'] at hgp
    rcases hgp with ⟨base, hbase, rfl⟩
    exact ⟨e, he, base, hbase, rfl⟩

/-- C7: in Prefix mode a base score is assigned iff the lowercase name
starts with the normalized query, and then equals 10000 minus the name
length; in Substring mode iff the lowercase name contains the query,
and then equals 5000 minus the index of the first occurrence; entries
with no base score never appear in the search results. -/
theorem claim_C7_prefix_substring_scores
    (fuzzy : List Char → List Char → Option Int)
    (lname q : List Char) (s : Int) (hq : q ≠ []) :
    (matchScoreSingleCached fuzzy .Prefix lname q = some s ↔
      q <+: lname ∧ s = 10000 - (lname.length : Int))
    ∧ (matchScoreSingleCached fuzzy .Substring lname q = some s ↔
      ∃ i : Nat, q <+: lname.drop i ∧ (∀ j < i, ¬ q <+: lname.drop j)
        ∧ s = 5000 - (i : Int))
    ∧ (∀ (entries : List AppEntry) (query : List Char) (mr : Nat)
        (hist : HistAccess) (mode : SearchMode) (r : SearchResult),
        r ∈ search fuzzy entries query mr hist mode →
        ∃ e ∈ entries,
          entryBaseScore fuzzy mode ((normalize_query query).contains '.') e
            (toLowerList e.name) (normalize_query query) ≠ none
          ∧ r.name = e.name ∧ r.path = e.target_path) := by
  refine ⟨?_, ?_, ?_⟩
  · simp only [matchScoreSingleCached]
    by_cases hp : q.isPrefixOf lname
    · rw [if_pos hp]
      have hpre := List.isPrefixOf_iff_prefix.mp hp
      constructor
      · intro h
        cases h
        exact ⟨hpre, rfl⟩
      · rintro ⟨-, rfl⟩
        rfl
    · rw [if_neg hp]
      have hnp : ¬ q <+: lname := fun h => hp (List.isPrefixOf_iff_prefix.mpr h)
      simp [hnp]
  · have hmap : matchScoreSingleCached fuzzy .Substring lname q =
        (firstIdx q lname).map (fun (idx : Nat) => 5000 - (idx : Int)) := rfl
    rw [hmap]
    constructor
    · intro h
      rcases Option.map_eq_some'.mp h with ⟨i, hi, hs⟩
      rcases (firstIdx_spec q lname i).mp hi with ⟨h1, h2⟩
      exact ⟨i, h1, h2, hs.symm⟩
    · rintro ⟨i, h1, h2, rfl⟩
      rw [(firstIdx_spec q lname i).mpr ⟨h1, h2⟩]
      rfl
  · intro entries query mr hist mode r hr
    rcases search_result_mem hr with ⟨e, he, base, hbase, rfl⟩
    refine ⟨e, he, ?_, rfl, rfl⟩
    intro hnone
    rw [hbase] at hnone
    exact Option.noConfusion hnone

theorem claim_C7_prefix_substring_scores_witness :
    matchScoreSingleCached (fun _ _ => none) .Prefix
      ("notepad".data) ("note".data) = some 9993 :=
  (claim_C7_prefix_substring_scores (fun _ _ => none)
    ("notepad".data) ("note".data) 9993 (by decide)).1.mpr
    ⟨List.isPrefixOf_iff_prefix.mp (by decide), by decide⟩

/-- C10: every result of search or recent_history copies name, path and
is_folder verbatim from a catalog entry and has is_error false. -/
theorem claim_C10_results_from_catalog
    (fuzzy : List Char → List Char → Option Int) (entries : List AppEntry)
    (query : List Char) (mr : Nat) (hist : HistAccess) (mode : SearchMode) :
    (∀ r ∈ search fuzzy entries query mr hist mode,
      ∃ e ∈ entries, r = ⟨e.name, e.target_path, e.is_folder, false⟩)
    ∧ (∀ r ∈ recent_history entries hist mr,
      ∃ e ∈ entries, r = ⟨e.name, e.target_path, e.is_folder, false⟩) := by
  constructor
  · intro r hr
    rcases search_result_mem hr with ⟨e, he, _, _, rfl⟩
    exact ⟨e, he, rfl⟩
  · intro r hr
    simp only [recent_history] at hr
    rcases List.mem_filterMap.mp hr with ⟨p, hp, hlp⟩
    simp only [Option.map_eq_some'] at hlp
    rcases hlp with ⟨e, hfind, rfl⟩
    have he := List.mem_of_find?_eq_some hfind
    exact ⟨e, List.mem_reverse.mp he, rfl⟩

unseal List.merge List.mergeSort in
theorem claim_C10_results_from_catalog_witness :
    ∃ e ∈ [(⟨"Firefox".data, "C:\\ff.lnk".data, false⟩ : AppEntry)],
      (⟨"Firefox".data, "C:\\ff.lnk".data, false, false⟩ : SearchResult) =
        ⟨e.name, e.target_path, e.is_folder, false⟩ :=
  (claim_C10_results_from_catalog (fun _ _ => none)
    [⟨"Firefox".data, "C:\\ff.lnk".data, false⟩] ("fire".data) 8
    emptyHistAccess .Prefix).1
    ⟨"Firefox".data, "C:\\ff.lnk".data, false, false⟩ (by decide)

unseal List.merge List.mergeSort in
/-- C8: with a dotted normalized query the per-entry base score combines
the display-name score and the target filename score, taking the larger
when both match, and is assigned iff at least one matches; without a dot
only the display name matters; in particular the SSP entry with an exe
target is the unique Prefix hit for the query ssp.exe, while with an lnk
target the same query yields no hit. -/
theorem claim_C8_extension_aware_matching
    (fuzzy : List Char → List Char → Option Int) :
    (∀ (mode : SearchMode) (e : AppEntry) (nq : List Char) (a b : Int),
      nq.contains '.' = true →
      matchScoreSingleCached fuzzy mode (toLowerList e.name) nq = some a →
      (fileName e.target_path).bind (fun f => matchScoreSingle fuzzy mode f nq) = some b →
      entryBaseScore fuzzy mode (nq.contains '.') e (toLowerList e.name) nq =
        some (max a b))
    ∧ (∀ (mode : SearchMode) (e : AppEntry) (nq : List Char),
      nq.contains '.' = true →
      (entryBaseScore fuzzy mode (nq.contains '.') e (toLowerList e.name) nq = none ↔
        (matchScoreSingleCached fuzzy mode (toLowerList e.name) nq = none ∧
         (fileName e.target_path).bind (fun f => matchScoreSingle fuzzy mode f nq) = none)))
    ∧ (∀ (mode : SearchMode) (e1 e2 : AppEntry) (nq : List Char),
      nq.contains '.' = false → e1.name = e2.name →
      entryBaseScore fuzzy mode (nq.contains '.') e1 (toLowerList e1.name) nq =
        entryBaseScore fuzzy mode (nq.contains '.') e2 (toLowerList e2.name) nq)
    ∧ (search fuzzy [⟨"SSP".data, "C:\\fake\\SSP.exe".data, false⟩]
        ("ssp.exe".data) 8 emptyHistAccess .Prefix =
        [⟨"SSP".data, "C:\\fake\\SSP.exe".data, false, false⟩])
    ∧ (search fuzzy [⟨"SSP".data, "C:\\fake\\SSP.lnk".data, false⟩]
        ("ssp.exe".data) 8 emptyHistAccess .Prefix = []) := by
  refine ⟨?_, ?_, ?_, ?_, ?_⟩
  · intro mode e nq a b hdot ha hb
    rw [hdot]
    simp [entryBaseScore, ha, hb]
  · intro mode e nq hdot
    rw [hdot]
    rcases hs1 : matchScoreSingleCached fuzzy mode (toLowerList e.name) nq with _ | a <;>
      rcases hs2 : (fileName e.target_path).bind
        (fun f => matchScoreSingle fuzzy mode f nq) with _ | b <;>
      simp [entryBaseScore, hs1, hs2]
  · intro mode e1 e2 nq hdot hname
    rw [hdot]
    simp [entryBaseScore, hname]
  · rfl
  · rfl

theorem claim_C8_extension_aware_matching_witness :
    entryBaseScore (fun _ _ => none) .Prefix (("ssp.exe".data).contains '.')
      ⟨"SSP.exe".data, "C:\\SSP.exe".data, false⟩
      (toLowerList ("SSP.exe".data)) ("ssp.exe".data) = some (max 9993 9993) :=
  (claim_C8_extension_aware_matching (fun _ _ => none)).1 .Prefix
    ⟨"SSP.exe".data, "C:\\SSP.exe".data, false⟩ ("ssp.exe".data) 9993 9993
    (by decide) (by decide) (by decide)

/-! Live folder listing, from snotra-core/src/folder.rs.  The directory
read enters as a parameter: none models a failing read_dir, some gives
the listing, with entries whose own read failed already dropped,
matching the flatten in the source.  The Windows hidden and system
attributes come with each entry; a failing metadata read (attrs none)
counts as visible, matching is_visible_entry. -/

structure DirEntry where
  name : List Char
  path : List Char
  is_dir : Bool
  attrs : Option (Bool × Bool)

def is_visible_entry (d : DirEntry) : Bool :=
  match d.attrs with
  | none => true
  | some (hidden, system) => !hidden && !system

def matches_filter (fuzzy : List Char → List Char → Option Int)
    (name filter : List Char) (mode : SearchMode) : Bool :=
  let name_lower := toLowerList name
  let filter_lower := toLowerList filter
  match mode with
  | .Prefix => filter_lower.isPrefixOf name_lower
  | .Substring => (firstIdx filter_lower name_lower).isSome
  | .Fuzzy => (fuzzy name_lower filter_lower).isSome

def folderCmp (hist : HistAccess) (a b : SearchResult) : Ordering :=
  ((compare b.is_folder a.is_folder).then
    (compare (if b.is_folder then hist.folderExpansionCount b.path else 0)
      (if a.is_folder then hist.folderExpansionCount a.path else 0))).then
    (cmpChars (toLowerList a.name) (toLowerList b.name))

def folderLe (hist : HistAccess) (a b : SearchResult) : Bool :=
  match folderCmp hist a b with
  | .gt => false
  | _ => true

def accessErrorName : List Char := "アクセスできません".data

def list_folder (fuzzy : List Char → List Char → Option Int)
    (dirPath : List Char) (readDir : Option (List DirEntry))
    (filter : List Char) (mode : SearchMode) (show_hidden_system : Bool)
    (hist : HistAccess) (max_results : Nat) : List SearchResult :=
  match readDir with
  | none =>
    [{ name := accessErrorName, path := dirPath,
       is_folder := false, is_error := true }]
  | some des =>
    let entries := des.filterMap (fun d =>
      if !show_hidden_system && !is_visible_entry d then none
      else if !filter.isEmpty && !matches_filter fuzzy d.name filter mode then none
      else some { name := d.name, path := d.path,
                  is_folder := d.is_dir, is_error := false })
    (entries.mergeSort (folderLe hist)).take max_results

/-- C9: when the directory cannot be read, list_folder returns exactly one
synthetic row and it is marked is_error, never an empty list and never a
propagated failure; when the directory is readable every returned row has
is_error false. -/
theorem claim_C9_unreadable_dir
    (fuzzy : List Char → List Char → Option Int) (dirPath filter : List Char)
    (mode : SearchMode) (shs : Bool) (hist : HistAccess) (mr : Nat) :
    ((list_folder fuzzy dirPath none filter mode shs hist mr).length = 1
      ∧ ∀ r ∈ list_folder fuzzy dirPath none filter mode shs hist mr,
          r.is_error = true)
    ∧ (∀ des : List DirEntry,
        ∀ r ∈ list_folder fuzzy dirPath (some des) filter mode shs hist mr,
          r.is_error = false) := by
  refine ⟨⟨rfl, ?_⟩, ?_⟩
  · intro r hr
    simp only [list_folder, List.mem_singleton] at hr
    rw [hr]
  · intro des r hr
    simp only [list_folder] at hr
    have hr2 := List.mem_mergeSort.mp (List.mem_of_mem_take hr)
    rcases List.mem_filterMap.mp hr2 with ⟨d, -, hd⟩
    by_cases h1 : (!shs && !is_visible_entry d) = true
    · rw [if_pos h1] at hd
      exact Option.noConfusion hd
    · rw [if_neg h1] at hd
      by_cases h2 : (!filter.isEmpty && !matches_filter fuzzy d.name filter mode) = true
      · rw [if_pos h2] at hd
        exact Option.noConfusion hd
      · rw [if_neg h2] at hd
        cases hd
        rfl

unseal List.merge List.mergeSort in
theorem claim_C9_unreadable_dir_witness :
    ((⟨accessErrorName, "C:\\locked".data, false, true⟩ : SearchResult).is_error = true)
    ∧ ((⟨"a.txt".data, "C:\\ok\\a.txt".data, false, false⟩ : SearchResult).is_error = false) := by
  constructor
  · exact (claim_C9_unreadable_dir (fun _ _ => none) ("C:\\locked".data) []
      .Substring true emptyHistAccess 100).1.2
      ⟨accessErrorName, "C:\\locked".data, false, true⟩ (by decide)
  · exact (claim_C9_unreadable_dir (fun _ _ => none) ("C:\\ok".data) []
      .Substring true emptyHistAccess 100).2
      [⟨"a.txt".data, "C:\\ok\\a.txt".data, false, none⟩]
      ⟨"a.txt".data, "C:\\ok\\a.txt".data, false, false⟩ (by decide)

/-! History store, from snotra-core/src/history.rs.  The hash maps are
association lists: an update keeps the position of an existing key and
appends a new key, matching the observable contents of the Rust maps.
u32 counters are naturals; the saturating_add on the global launch
counter is min with u32 max, while the plain Rust increments on the
per-query tally and the folder-expansion count wrap modulo 2 ^ 32.
record_launch and record_folder_expansion end with save, and save runs
prune before writing, so the modelled operations end with the prune. -/

def U32MAX : Nat := 2 ^ 32 - 1

structure GlobalEntry where
  launch_count : Nat
  last_launched : Nat
deriving DecidableEq

structure HistoryData where
  global : List (List Char × GlobalEntry)
  query : List (List Char × List (List Char × Nat))
  folder_expansion : List (List Char × Nat)
deriving DecidableEq

def updateAL {β : Type} (l : List (List Char × β)) (k : List Char)
    (f : Option β → β) : List (List Char × β) :=
  match l with
  | [] => [(k, f none)]
  | (k0, v) :: tl =>
    if k0 = k then (k0, f (some v)) :: tl else (k0, v) :: updateAL tl k f

def lookupAL {β : Type} (l : List (List Char × β)) (k : List Char) : Option β :=
  match l with
  | [] => none
  | (k0, v) :: tl => if k0 = k then some v else lookupAL tl k

def containsKey {β : Type} (l : List (List Char × β)) (k : List Char) : Bool :=
  (lookupAL l k).isSome

theorem lookupAL_updateAL {β : Type} (l : List (List Char × β))
    (k k' : List Char) (f : Option β → β) :
    lookupAL (updateAL l k f) k' =
      if k' = k then some (f (lookupAL l k)) else lookupAL l k' := by
  induction l with
  | nil =>
    by_cases h : k' = k
    · simp [updateAL, lookupAL, h]
    · simp [updateAL, lookupAL, h, Ne.symm h]
  | cons hd tl ih =>
    rcases hd with ⟨k0, v⟩
    by_cases h0 : k0 = k
    · subst h0
      by_cases h1 : k' = k0
      · simp [updateAL, lookupAL, h1]
      · simp [updateAL, lookupAL, h1, Ne.symm h1]
    · by_cases h1 : k0 = k'
      · subst h1
        simp [updateAL, lookupAL, h0, Ne.symm h0]
      · simp [updateAL, lookupAL, h0, h1, ih]

theorem length_updateAL {β : Type} (l : List (List Char × β))
    (k : List Char) (f : Option β → β) :
    (updateAL l k f).length ≤ l.length + 1 := by
  induction l with
  | nil => simp [updateAL]
  | cons hd tl ih =>
    rcases hd with ⟨k0, v⟩
    by_cases h0 : k0 = k
    · simp [updateAL, h0]
    · simp only [updateAL, h0, if_false, List.length_cons]
      omega

theorem mem_updateAL {β : Type} {l : List (List Char × β)}
    {k : List Char} {f : Option β → β} {x : List Char × β}
    (hx : x ∈ updateAL l k f) :
    x ∈ l ∨ (x.1 = k ∧ x.2 = f (lookupAL l k)) := by
  induction l with
  | nil =>
    simp only [updateAL, List.mem_singleton] at hx
    subst hx
    exact Or.inr ⟨rfl, rfl⟩
  | cons hd tl ih =>
    rcases hd with ⟨k0, v⟩
    by_cases h0 : k0 = k
    · subst h0
      have hx2 : x ∈ (k0, f (some v)) :: tl := by simpa [updateAL] using hx
      rcases List.mem_cons.mp hx2 with h | h
      · subst h
        exact Or.inr ⟨rfl, by simp [lookupAL]⟩
      · exact Or.inl (List.mem_cons_of_mem _ h)
    · have hx2 : x ∈ (k0, v) :: updateAL tl k f := by simpa [updateAL, h0] using hx
      rcases List.mem_cons.mp hx2 with h | h
      · subst h
        exact Or.inl (List.mem_cons_self _ _)
      · rcases ih h with h2 | h2
        · exact Or.inl (List.mem_cons_of_mem _ h2)
        · exact Or.inr ⟨h2.1, by simpa [lookupAL, h0] using h2.2⟩

theorem updateAL_ne_nil {β : Type} (l : List (List Char × β))
    (k : List Char) (f : Option β → β) : updateAL l k f ≠ [] := by
  cases l with
  | nil => simp [updateAL]
  | cons hd tl =>
    rcases hd with ⟨k0, v⟩
    by_cases h0 : k0 = k <;> simp [updateAL, h0]

theorem containsKey_of_mem {β : Type} {l : List (List Char × β)}
    {k : List Char} {v : β} (h : (k, v) ∈ l) : containsKey l k = true := by
  induction l with
  | nil => cases h
  | cons hd tl ih =>
    rcases hd with ⟨k0, v0⟩
    rcases List.mem_cons.mp h with h1 | h1
    · cases h1
      simp [containsKey, lookupAL]
    · by_cases h0 : k0 = k
      · simp [containsKey, lookupAL, h0]
      · simpa [containsKey, lookupAL, h0] using ih h1

theorem mem_of_lookupAL {β : Type} {l : List (List Char × β)}
    {k : List Char} {v : β} (h : lookupAL l k = some v) : (k, v) ∈ l := by
  induction l with
  | nil => cases h
  | cons hd tl ih =>
    rcases hd with ⟨k0, v0⟩
    by_cases h0 : k0 = k
    · subst h0
      have h2 : some v0 = some v := by simpa [lookupAL] using h
      cases h2
      exact List.mem_cons_self _ _
    · have h2 : lookupAL tl k = some v := by simpa [lookupAL, h0] using h
      exact List.mem_cons_of_mem _ (ih h2)

def recordLaunchData (path query : List Char) (now : Nat)
    (d : HistoryData) : HistoryData :=
  let g := updateAL d.global path (fun o =>
    let e := o.getD ⟨0, 0⟩
    { launch_count := min (e.launch_count + 1) U32MAX, last_launched := now })
  let nq := normalize_query query
  let q :=
    if nq.isEmpty then d.query
    else updateAL d.query nq (fun o =>
      updateAL (o.getD []) path (fun c => (c.getD 0 + 1) % 2 ^ 32))
  { global := g, query := q, folder_expansion := d.folder_expansion }

def recordFolderData (folder : List Char) (d : HistoryData) : HistoryData :=
  { d with folder_expansion :=
      updateAL d.folder_expansion folder (fun c => (c.getD 0 + 1) % 2 ^ 32) }

def survivingGlobal (top_n : Nat) (d : HistoryData) :
    List (List Char × GlobalEntry) :=
  (d.global.mergeSort
    (fun a b => decide (b.2.launch_count ≤ a.2.launch_count))).take top_n

def pruneData (top_n : Nat) (d : HistoryData) : HistoryData :=
  let g :=
    if top_n < d.global.length then survivingGlobal top_n d else d.global
  let q :=
    if top_n < d.global.length then
      d.query.filterMap (fun p =>
        let m := p.2.filter (fun e => containsKey (survivingGlobal top_n d) e.1)
        if m.isEmpty then none else some (p.1, m))
    else d.query
  let f :=
    if top_n < d.folder_expansion.length then
      (d.folder_expansion.mergeSort (fun a b => decide (b.2 ≤ a.2))).take top_n
    else d.folder_expansion
  { global := g, query := q, folder_expansion := f }

def record_launch (top_n : Nat) (path query : List Char) (now : Nat)
    (d : HistoryData) : HistoryData :=
  pruneData top_n (recordLaunchData path query now d)

def record_folder_expansion (top_n : Nat) (folder : List Char)
    (d : HistoryData) : HistoryData :=
  pruneData top_n (recordFolderData folder d)

def global_count (d : HistoryData) (path : List Char) : Nat :=
  ((lookupAL d.global path).map (fun e => e.launch_count)).getD 0

def query_count (d : HistoryData) (query path : List Char) : Nat :=
  ((lookupAL d.query (normalize_query query)).bind
    (fun m => lookupAL m path)).getD 0

def folder_expansion_count (d : HistoryData) (folder : List Char) : Nat :=
  (lookupAL d.folder_expansion folder).getD 0

inductive Reachable (top_n : Nat) : HistoryData → Prop
  | empty : Reachable top_n ⟨[], [], []⟩
  | launch (p q : List Char) (t : Nat) {d : HistoryData} :
      Reachable top_n d → Reachable top_n (record_launch top_n p q t d)
  | folderExp (f : List Char) {d : HistoryData} :
      Reachable top_n d → Reachable top_n (record_folder_expansion top_n f d)
  | prune {d : HistoryData} :
      Reachable top_n d → Reachable top_n (pruneData top_n d)

def queryConsistent (d : HistoryData) : Prop :=
  ∀ qk m, (qk, m) ∈ d.query → ∀ p c, (p, c) ∈ m →
    containsKey d.global p = true

def noEmptyQuery (d : HistoryData) : Prop :=
  ∀ qk m, (qk, m) ∈ d.query → m ≠ []

theorem containsKey_updateAL {β : Type} (l : List (List Char × β))
    (k k' : List Char) (f : Option β → β) :
    containsKey (updateAL l k f) k' =
      if k' = k then true else containsKey l k' := by
  by_cases h : k' = k <;> simp [containsKey, lookupAL_updateAL, h]

theorem inv_recordLaunchData {d : HistoryData}
    (h1 : queryConsistent d) (h2 : noEmptyQuery d)
    (p q : List Char) (t : Nat) :
    queryConsistent (recordLaunchData p q t d)
      ∧ noEmptyQuery (recordLaunchData p q t d) := by
  have hglobal : ∀ p' : List Char, containsKey d.global p' = true →
      containsKey (recordLaunchData p q t d).global p' = true := by
    intro p' hp
    simp only [recordLaunchData]
    rw [containsKey_updateAL]
    by_cases h : p' = p <;> simp [h, hp]
  have hglobalp : containsKey (recordLaunchData p q t d).global p = true := by
    simp only [recordLaunchData]
    rw [containsKey_updateAL]
    simp
  constructor
  · intro qk m hm p' c hpc
    simp only [recordLaunchData] at hm
    by_cases hq : (normalize_query q).isEmpty
    · rw [if_pos hq] at hm
      exact hglobal p' (h1 qk m hm p' c hpc)
    · rw [if_neg hq] at hm
      rcases mem_updateAL hm with hin | ⟨-, hval⟩
      · exact hglobal p' (h1 qk m hin p' c hpc)
      · replace hval : m = updateAL
          ((lookupAL d.query (normalize_query q)).getD []) p
          (fun c => (c.getD 0 + 1) % 2 ^ 32) := hval
        rw [hval] at hpc
        rcases mem_updateAL hpc with hin2 | ⟨hkey, -⟩
        · rcases ho : lookupAL d.query (normalize_query q) with _ | m0
          · rw [ho] at hin2
            cases hin2
          · rw [ho] at hin2
            exact hglobal p' (h1 _ m0 (mem_of_lookupAL ho) p' c hin2)
        · replace hkey : p' = p := hkey
          rw [hkey]
          exact hglobalp
  · intro qk m hm
    simp only [recordLaunchData] at hm
    by_cases hq : (normalize_query q).isEmpty
    · rw [if_pos hq] at hm
      exact h2 qk m hm
    · rw [if_neg hq] at hm
      rcases mem_updateAL hm with hin | ⟨-, hval⟩
      · exact h2 qk m hin
      · replace hval : m = updateAL
          ((lookupAL d.query (normalize_query q)).getD []) p
          (fun c => (c.getD 0 + 1) % 2 ^ 32) := hval
        rw [hval]
        exact updateAL_ne_nil _ _ _

theorem inv_recordFolderData {d : HistoryData}
    (h1 : queryConsistent d) (h2 : noEmptyQuery d) (f : List Char) :
    queryConsistent (recordFolderData f d)
      ∧ noEmptyQuery (recordFolderData f d) := by
  constructor
  · intro qk m hm p c hpc
    exact h1 qk m hm p c hpc
  · intro qk m hm
    exact h2 qk m hm

theorem inv_pruneData {top_n : Nat} {d : HistoryData}
    (h1 : queryConsistent d) (h2 : noEmptyQuery d) :
    queryConsistent (pruneData top_n d)
      ∧ noEmptyQuery (pruneData top_n d) := by
  by_cases hlen : top_n < d.global.length
  · constructor
    · intro qk m hm p c hpc
      simp only [pruneData, if_pos hlen] at hm ⊢
      rcases List.mem_filterMap.mp hm with ⟨x, -, hx⟩
      by_cases he : (x.2.filter
          (fun e => containsKey (survivingGlobal top_n d) e.1)).isEmpty
      · rw [if_pos he] at hx
        exact Option.noConfusion hx
      · rw [if_neg he] at hx
        cases hx
        have := List.of_mem_filter hpc
        simpa using this
    · intro qk m hm
      simp only [pruneData, if_pos hlen] at hm
      rcases List.mem_filterMap.mp hm with ⟨x, -, hx⟩
      by_cases he : (x.2.filter
          (fun e => containsKey (survivingGlobal top_n d) e.1)).isEmpty
      · rw [if_pos he] at hx
        exact Option.noConfusion hx
      · rw [if_neg he] at hx
        cases hx
        intro hnil
        rw [hnil] at he
        exact he rfl
  · constructor
    · intro qk m hm p c hpc
      simp only [pruneData, if_neg hlen] at hm ⊢
      exact h1 qk m hm p c hpc
    · intro qk m hm
      simp only [pruneData, if_neg hlen] at hm
      exact h2 qk m hm

theorem reachable_inv {top_n : Nat} {d : HistoryData}
    (hd : Reachable top_n d) : queryConsistent d ∧ noEmptyQuery d := by
  induction hd with
  | empty =>
    constructor
    · intro qk m hm
      cases hm
    · intro qk m hm
      cases hm
  | launch p q t hd ih =>
    have h := inv_recordLaunchData ih.1 ih.2 p q t
    exact inv_pruneData h.1 h.2
  | folderExp f hd ih =>
    have h := inv_recordFolderData ih.1 ih.2 f
    exact inv_pruneData h.1 h.2
  | prune hd ih =>
    exact inv_pruneData ih.1 ih.2

theorem pruneData_global_length_le (top_n : Nat) (d : HistoryData) :
    (pruneData top_n d).global.length ≤ top_n := by
  by_cases hlen : top_n < d.global.length
  · simp only [pruneData, if_pos hlen, survivingGlobal]
    exact List.length_take_le _ _
  · simp only [pruneData, if_neg hlen]
    omega

theorem pruneData_folder_length_le (top_n : Nat) (d : HistoryData) :
    (pruneData top_n d).folder_expansion.length ≤ top_n := by
  by_cases hlen : top_n < d.folder_expansion.length
  · simp only [pruneData, if_pos hlen]
    exact List.length_take_le _ _
  · simp only [pruneData, if_neg hlen]
    omega

theorem pruneData_keeps_top (top_n : Nat) (d : HistoryData) :
    ∀ x ∈ (pruneData top_n d).global, ∀ y ∈ d.global,
      containsKey (pruneData top_n d).global y.1 = false →
      y.2.launch_count ≤ x.2.launch_count := by
  intro x hx y hy hdrop
  by_cases hlen : top_n < d.global.length
  · simp only [pruneData, if_pos hlen] at hx hdrop
    set le := fun (a b : List Char × GlobalEntry) =>
      decide (b.2.launch_count ≤ a.2.launch_count) with hle
    set sorted := d.global.mergeSort le with hsorted
    have hpair : List.Pairwise (fun a b => le a b = true) sorted := by
      refine List.sorted_mergeSort ?_ ?_ d.global
      · intro a b c hab hbc
        simp only [hle, decide_eq_true_eq] at hab hbc ⊢
        omega
      · intro a b
        simp only [hle, Bool.or_eq_true, decide_eq_true_eq]
        omega
    have hysorted : y ∈ sorted := (List.mem_mergeSort).mpr hy
    have hsplit : sorted = sorted.take top_n ++ sorted.drop top_n :=
      (List.take_append_drop top_n sorted).symm
    have hynotin : y ∉ sorted.take top_n := by
      intro hin
      have : containsKey (sorted.take top_n) y.1 = true := by
        rcases y with ⟨yk, yv⟩
        exact containsKey_of_mem hin
      rw [show sorted.take top_n = survivingGlobal top_n d from rfl] at this
      rw [this] at hdrop
      exact Bool.noConfusion hdrop
    have hydrop : y ∈ sorted.drop top_n := by
      rcases List.mem_append.mp (hsplit ▸ hysorted) with h | h
      · exact absurd h hynotin
      · exact h
    have hxin : x ∈ sorted.take top_n := hx
    rw [hsplit] at hpair
    rcases List.pairwise_append.mp hpair with ⟨-, -, hcross⟩
    have := hcross x hxin y hydrop
    simpa [hle] using this
  · simp only [pruneData, if_neg hlen] at hx hdrop
    rcases y with ⟨yk, yv⟩
    rw [containsKey_of_mem hy] at hdrop
    exact Bool.noConfusion hdrop

/-- C3: in every state reachable from the empty history by record_launch,
record_folder_expansion and prune, immediately after a pruning pass the
query map holds no target path absent from the global map, no per-query
sub-map is empty, the global map has at most top_n entries and every
dropped entry has a launch count at most that of every kept entry, and
folder_expansion has at most top_n entries. -/
theorem claim_C3_prune_invariants (top_n : Nat) (d : HistoryData)
    (hd : Reachable top_n d) :
    (∀ qk m, (qk, m) ∈ (pruneData top_n d).query →
      ∀ p c, (p, c) ∈ m → containsKey (pruneData top_n d).global p = true)
    ∧ (∀ qk m, (qk, m) ∈ (pruneData top_n d).query → m ≠ [])
    ∧ (pruneData top_n d).global.length ≤ top_n
    ∧ (∀ x ∈ (pruneData top_n d).global, ∀ y ∈ d.global,
        containsKey (pruneData top_n d).global y.1 = false →
        y.2.launch_count ≤ x.2.launch_count)
    ∧ (pruneData top_n d).folder_expansion.length ≤ top_n := by
  have hinv := reachable_inv (Reachable.prune hd)
  exact ⟨hinv.1, hinv.2, pruneData_global_length_le top_n d,
    pruneData_keeps_top top_n d, pruneData_folder_length_le top_n d⟩

unseal List.merge List.mergeSort in
theorem claim_C3_prune_invariants_witness :
    (pruneData 2 (record_launch 2 ("C:\\a.exe".data) ("go".data) 5
      ⟨[], [], []⟩)).global.length ≤ 2 :=
  (claim_C3_prune_invariants 2
    (record_launch 2 ("C:\\a.exe".data) ("go".data) 5 ⟨[], [], []⟩)
    (Reachable.launch ("C:\\a.exe".data) ("go".data) 5 Reachable.empty)).2.2.1

theorem global_count_recordLaunchData (d : HistoryData)
    (p q : List Char) (t : Nat) :
    global_count (recordLaunchData p q t d) p =
      min (global_count d p + 1) U32MAX := by
  simp only [global_count, recordLaunchData]
  rw [lookupAL_updateAL]
  rw [if_pos rfl]
  rcases lookupAL d.global p with _ | e <;> simp

theorem query_count_recordLaunchData (d : HistoryData)
    (p q : List Char) (t : Nat)
    (hq : (normalize_query q).isEmpty = false) :
    query_count (recordLaunchData p q t d) q p =
      (query_count d q p + 1) % 2 ^ 32 := by
  simp only [query_count, recordLaunchData, hq, Bool.false_eq_true,
    if_false]
  rw [lookupAL_updateAL]
  rw [if_pos rfl]
  simp only [Option.some_bind]
  rw [lookupAL_updateAL]
  rw [if_pos rfl]
  rcases lookupAL d.query (normalize_query q) with _ | m
  · simp [lookupAL]
  · simp only [Option.getD_some, Option.some_bind]

theorem folder_count_recordFolderData (d : HistoryData) (f : List Char) :
    folder_expansion_count (recordFolderData f d) f =
      (folder_expansion_count d f + 1) % 2 ^ 32 := by
  simp only [folder_expansion_count, recordFolderData]
  rw [lookupAL_updateAL]
  rw [if_pos rfl]
  rcases lookupAL d.folder_expansion f with _ | c <;> simp

theorem global_count_pruneData {top_n : Nat} {d : HistoryData}
    (h : ¬ top_n < d.global.length) (p : List Char) :
    global_count (pruneData top_n d) p = global_count d p := by
  simp [global_count, pruneData, h]

theorem query_count_pruneData {top_n : Nat} {d : HistoryData}
    (h : ¬ top_n < d.global.length) (q p : List Char) :
    query_count (pruneData top_n d) q p = query_count d q p := by
  simp [query_count, pruneData, h]

theorem folder_count_pruneData {top_n : Nat} {d : HistoryData}
    (h : ¬ top_n < d.folder_expansion.length) (f : List Char) :
    folder_expansion_count (pruneData top_n d) f =
      folder_expansion_count d f := by
  simp [folder_expansion_count, pruneData, h]

theorem length_global_recordLaunchData (d : HistoryData)
    (p q : List Char) (t : Nat) :
    (recordLaunchData p q t d).global.length ≤ d.global.length + 1 := by
  simp only [recordLaunchData]
  exact length_updateAL _ _ _

theorem length_folder_recordFolderData (d : HistoryData) (f : List Char) :
    (recordFolderData f d).folder_expansion.length ≤
      d.folder_expansion.length + 1 := by
  simp only [recordFolderData]
  exact length_updateAL _ _ _

/-- C2 amended: the global launch counter saturates at u32 max under
record_launch, but the per-query tally and the folder-expansion counter
are incremented with plain wrapping u32 addition; stated for states whose
maps stay within the prune threshold so the pruning pass inside save does
not remove the touched entry. -/
theorem claim_C2_amended (top_n : Nat) (d : HistoryData)
    (p q f : List Char) (t : Nat)
    (hg : d.global.length < top_n)
    (hf : d.folder_expansion.length < top_n) :
    global_count (record_launch top_n p q t d) p =
      min (global_count d p + 1) U32MAX
    ∧ ((normalize_query q).isEmpty = false →
        query_count (record_launch top_n p q t d) q p =
          (query_count d q p + 1) % 2 ^ 32)
    ∧ folder_expansion_count (record_folder_expansion top_n f d) f =
        (folder_expansion_count d f + 1) % 2 ^ 32 := by
  have hg2 : ¬ top_n < (recordLaunchData p q t d).global.length := by
    have := length_global_recordLaunchData d p q t
    omega
  have hf2 : ¬ top_n <
      (recordFolderData f d).folder_expansion.length := by
    have := length_folder_recordFolderData d f
    omega
  refine ⟨?_, ?_, ?_⟩
  · rw [record_launch, global_count_pruneData hg2]
    exact global_count_recordLaunchData d p q t
  · intro hq
    rw [record_launch, query_count_pruneData hg2]
    exact query_count_recordLaunchData d p q t hq
  · rw [record_folder_expansion, folder_count_pruneData hf2]
    exact folder_count_recordFolderData d f

theorem claim_C2_amended_witness :
    query_count (record_launch 3 ("C:\\a.exe".data) ("note".data) 0
        ⟨[], [], []⟩) ("note".data) ("C:\\a.exe".data) =
      (query_count (⟨[], [], []⟩ : HistoryData) ("note".data)
        ("C:\\a.exe".data) + 1) % 2 ^ 32 :=
  (claim_C2_amended 3 ⟨[], [], []⟩ ("C:\\a.exe".data) ("note".data)
    ("C:\\dir".data) 0 (by decide) (by decide)).2.1 (by decide)

theorem claim_C2_counterexample :
    query_count
      (⟨[(("C:\\app.lnk".data), ⟨3, 0⟩)],
        [(("note".data), [(("C:\\app.lnk".data), U32MAX)])],
        []⟩ : HistoryData)
      ("note".data) ("C:\\app.lnk".data) = U32MAX
    ∧ query_count
        (record_launch 100 ("C:\\app.lnk".data) ("note".data) 1
          ⟨[(("C:\\app.lnk".data), ⟨3, 0⟩)],
           [(("note".data), [(("C:\\app.lnk".data), U32MAX)])],
           []⟩)
        ("note".data) ("C:\\app.lnk".data) = 0 := by
  constructor
  · decide
  · decide

/-! Persistence sequence of HistoryStore::save, from
snotra-core/src/history.rs lines 77 to 82: write the serialized bytes to
a temp file, then remove the real file, then rename the temp file onto
the real path.  The disk is the pair of contents at the real path and at
the temp path; an interrupted run is the foldl over a prefix of the step
list. -/

inductive SaveStep
  | writeTemp
  | removeReal
  | renameTemp
deriving DecidableEq

structure DiskState where
  target : Option (List Nat)
  temp : Option (List Nat)
deriving DecidableEq

def stepSave (newBytes : List Nat) (d : DiskState) : SaveStep → DiskState
  | .writeTemp => { d with temp := some newBytes }
  | .removeReal => { d with target := none }
  | .renameTemp =>
    match d.temp with
    | some c => { target := some c, temp := none }
    | none => d

def saveSeq : List SaveStep := [.writeTemp, .removeReal, .renameTemp]

def saveAfter (old : Option (List Nat)) (newBytes : List Nat)
    (n : Nat) : DiskState :=
  (saveSeq.take n).foldl (stepSave newBytes) ⟨old, none⟩

theorem claim_C4_counterexample :
    (saveAfter (some [1]) [2] 2).target ≠ some [1]
    ∧ (saveAfter (some [1]) [2] 2).target ≠ some [2] := by
  constructor <;> decide

/-- C4 amended: after any prefix of the save sequence the real path holds
the previous complete file, the complete new file, or no file at all (the
window between the remove and the rename); the temp path only ever holds
the complete new bytes; prefixes up to the temp write keep the previous
file, and the full sequence installs the new one.  The previous content
is never partially overwritten, but the claimed two-state alternative is
missing the no-file window. -/
theorem claim_C4_amended (old : Option (List Nat)) (newBytes : List Nat)
    (n : Nat) :
    ((saveAfter old newBytes n).target = old
      ∨ (saveAfter old newBytes n).target = some newBytes
      ∨ (saveAfter old newBytes n).target = none)
    ∧ ((saveAfter old newBytes n).temp = none
      ∨ (saveAfter old newBytes n).temp = some newBytes)
    ∧ (n ≤ 1 → (saveAfter old newBytes n).target = old)
    ∧ (3 ≤ n → (saveAfter old newBytes n).target = some newBytes) := by
  rcases n with _ | n
  · exact ⟨Or.inl rfl, Or.inl rfl, fun _ => rfl, fun h => absurd h (by omega)⟩
  rcases n with _ | n
  · exact ⟨Or.inl rfl, Or.inr rfl, fun _ => rfl, fun h => absurd h (by omega)⟩
  rcases n with _ | n
  · exact ⟨Or.inr (Or.inr rfl), Or.inr rfl,
      fun h => absurd h (by omega), fun h => absurd h (by omega)⟩
  · have htake : saveSeq.take (n + 3) = saveSeq :=
      List.take_of_length_le (by simp [saveSeq])
    have h3 : saveAfter old newBytes (n + 3) = ⟨some newBytes, none⟩ := by
      rw [saveAfter, htake]
      rfl
    rw [h3]
    exact ⟨Or.inr (Or.inl rfl), Or.inl rfl,
      fun h => absurd h (by omega), fun _ => rfl⟩

theorem claim_C4_amended_witness :
    (saveAfter (some [7]) [9] 1).target = some [7]
    ∧ (saveAfter (some [7]) [9] 3).target = some [9] :=
  ⟨(claim_C4_amended (some [7]) [9] 1).2.2.1 (by decide),
   (claim_C4_amended (some [7]) [9] 3).2.2.2 (by decide)⟩

/-! Index cache logic, from src/src/indexer.rs.  scan_all walks the
filesystem, so the scanned entry list enters load_or_scan as a
parameter, as do the configuration hash and the clock; the cache file
read is a parameter with distinct missing and undecodable states, and
save_cache is modelled as succeeding and replacing the cache file. -/

structure IndexCache where
  version : Nat
  built_at : Nat
  entries : List AppEntry
  config_hash : Nat
deriving DecidableEq

def INDEX_CACHE_VERSION : Nat := 1

inductive CacheRead
  | missing
  | corrupt
  | ok (c : IndexCache)
deriving DecidableEq

def entries_equal (a b : List AppEntry) : Bool :=
  a.length == b.length &&
    (a.zip b).all (fun p =>
      p.1.name == p.2.name && p.1.target_path == p.2.target_path
        && p.1.is_folder == p.2.is_folder)

def save_cache (entries : List AppEntry) (config_hash now : Nat) : CacheRead :=
  .ok ⟨INDEX_CACHE_VERSION, now, entries, config_hash⟩

def load_or_scan (scanned : List AppEntry) (current_hash now : Nat)
    (cache : CacheRead) : List AppEntry × Bool × CacheRead :=
  let changed :=
    match cache with
    | .missing => true
    | .corrupt => true
    | .ok c =>
      (c.version != INDEX_CACHE_VERSION) || (c.config_hash != current_hash)
        || !entries_equal c.entries scanned
  let newCache :=
    if changed then save_cache scanned current_hash now else cache
  (scanned, changed, newCache)

theorem entries_equal_iff (a : List AppEntry) :
    ∀ b, entries_equal a b = true ↔ a = b := by
  induction a with
  | nil =>
    intro b
    cases b <;> simp [entries_equal]
  | cons x xs ih =>
    intro b
    cases b with
    | nil => simp [entries_equal]
    | cons y ys =>
      have ihy := ih ys
      simp only [entries_equal, Bool.and_eq_true, beq_iff_eq] at ihy
      simp only [entries_equal, List.length_cons, List.zip_cons_cons,
        List.all_cons, Bool.and_eq_true, beq_iff_eq]
      constructor
      · rintro ⟨hlen, ⟨⟨hn, ht⟩, hf⟩, hall⟩
        have hxs : xs = ys := ihy.mp ⟨by omega, hall⟩
        have hxy : x = y := by
          cases x
          cases y
          simp only at hn ht hf
          simp [hn, ht, hf]
        rw [hxy, hxs]
      · intro h
        injection h with h1 h2
        subst h1
        subst h2
        exact ⟨rfl, ⟨⟨rfl, rfl⟩, rfl⟩, (ihy.mpr rfl).2⟩

theorem claim_C1_counterexample :
    (load_or_scan [] 42 99 (.ok ⟨1, 5, [], 42⟩)).2.1 = false
    ∧ (load_or_scan [] 42 99 (.ok ⟨1, 5, [], 42⟩)).2.2 = .ok ⟨1, 5, [], 42⟩
    ∧ (load_or_scan [] 42 99 (.ok ⟨1, 5, [], 42⟩)).2.2 ≠ save_cache [] 42 99 := by
  refine ⟨rfl, rfl, ?_⟩
  decide

/-- C1 amended: load_or_scan calls save_cache only when the changed flag
is true, leaving the previous cache file (with its old built_at stamp)
untouched when changed is false; nevertheless after every call the cache
on disk is a decodable cache whose entry list equals the fresh scan
result and whose hash is the current configuration hash, because a false
changed flag certifies that the existing cache already matches. -/
theorem claim_C1_amended (scanned : List AppEntry) (h now : Nat)
    (cache : CacheRead) :
    ((load_or_scan scanned h now cache).2.1 = true →
      (load_or_scan scanned h now cache).2.2 = save_cache scanned h now)
    ∧ ((load_or_scan scanned h now cache).2.1 = false →
      (load_or_scan scanned h now cache).2.2 = cache)
    ∧ (∃ c : IndexCache, (load_or_scan scanned h now cache).2.2 = .ok c
        ∧ c.entries = scanned ∧ c.config_hash = h
        ∧ c.version = INDEX_CACHE_VERSION) := by
  rcases cache with _ | _ | c
  · exact ⟨fun _ => rfl, fun hf => Bool.noConfusion hf,
      ⟨⟨INDEX_CACHE_VERSION, now, scanned, h⟩, rfl, rfl, rfl, rfl⟩⟩
  · exact ⟨fun _ => rfl, fun hf => Bool.noConfusion hf,
      ⟨⟨INDEX_CACHE_VERSION, now, scanned, h⟩, rfl, rfl, rfl, rfl⟩⟩
  · by_cases hch : ((c.version != INDEX_CACHE_VERSION)
        || (c.config_hash != h) || !entries_equal c.entries scanned) = true
    · refine ⟨fun _ => ?_, fun hf => ?_, ?_⟩
      · simp [load_or_scan, hch]
      · simp [load_or_scan, hch] at hf
      · exact ⟨⟨INDEX_CACHE_VERSION, now, scanned, h⟩,
          by simp [load_or_scan, hch, save_cache], rfl, rfl, rfl⟩
    · have hch2 : ((c.version != INDEX_CACHE_VERSION)
          || (c.config_hash != h) || !entries_equal c.entries scanned) = false :=
        Bool.not_eq_true _ ▸ eq_false_of_ne_true hch
      simp only [Bool.or_eq_false_iff, bne_eq_false_iff_eq,
        Bool.not_eq_true'] at hch2
      obtain ⟨⟨hver, hhash⟩, heq⟩ := hch2
      have heq2 : entries_equal c.entries scanned = true := by
        simpa using heq
      have hent : c.entries = scanned := (entries_equal_iff _ _).mp heq2
      refine ⟨fun ht => ?_, fun _ => ?_, ?_⟩
      · simp [load_or_scan, hch] at ht
      · simp [load_or_scan, hch]
      · exact ⟨c, by simp [load_or_scan, hch], hent, hhash, hver⟩

theorem claim_C1_amended_witness :
    (load_or_scan [] 42 99 CacheRead.missing).2.2 = save_cache [] 42 99 :=
  (claim_C1_amended [] 42 99 CacheRead.missing).1 (by decide)

end Snotra
